import Mathlib

/-!
Shallow embedding of the BadASDLParserGenerator repository
(src/ast_basis.py and src/ast_classgen.py) and proofs about it.

Conventions of the embedding:
  * Python `None` is the value `Value.vnone`; an *absent* instance
    attribute is modelled by `getattr?` returning `Option.none`.
  * The four location coordinates and the class name live in the
    `ASTNode` constructor itself (they are dataclass fields that every
    node has); all other instance attributes live in the `attrs`
    association list, looked up by first occurrence, mirroring the
    instance dictionary.
  * Machine integers of the source are modelled as `Int` (Python ints
    are unbounded, so no wrap-around is introduced).
  * Python exceptions are modelled with `Except String`.
-/

namespace BadAsdl

mutual

/-- Embedding of a Python runtime value as far as ast_basis.py inspects it:
a node (instance of class AST), a list, an int, a string, or None.
These are exactly the shapes distinguished by the `isinstance` checks in
the source. -/
inductive Value : Type where
  | node : ASTNode → Value
  | vlist : List Value → Value
  | vint : Int → Value
  | vstr : String → Value
  | vnone : Value

/-- Embedding of an instance of the dataclass `AST` of ast_basis.py:
class name (used by NodeVisitor dispatch), the declared `_fields` and
`_attribs` name tuples, the four optional location coordinates, and the
remaining instance attributes as an association list. -/
inductive ASTNode : Type where
  | mk : (className : String) → (fields : List String) →
      (attribs : List String) →
      (lineno col_offset end_lineno end_col_offset : Option Int) →
      (attrs : List (String × Value)) → ASTNode

end

def ASTNode.className : ASTNode → String
  | .mk c _ _ _ _ _ _ _ => c

def ASTNode.fields : ASTNode → List String
  | .mk _ f _ _ _ _ _ _ => f

def ASTNode.attribs : ASTNode → List String
  | .mk _ _ a _ _ _ _ _ => a

def ASTNode.lineno : ASTNode → Option Int
  | .mk _ _ _ l _ _ _ _ => l

def ASTNode.col_offset : ASTNode → Option Int
  | .mk _ _ _ _ c _ _ _ => c

def ASTNode.end_lineno : ASTNode → Option Int
  | .mk _ _ _ _ _ e _ _ => e

def ASTNode.end_col_offset : ASTNode → Option Int
  | .mk _ _ _ _ _ _ e _ => e

def ASTNode.attrs : ASTNode → List (String × Value)
  | .mk _ _ _ _ _ _ _ a => a

/-- Value of an `Option Int` location slot as seen by `getattr`: the int
itself, or Python `None` when the slot is unset. -/
def optIntVal : Option Int → Value
  | some i => .vint i
  | none => .vnone

/-- First-occurrence association-list lookup, modelling dictionary access
on the instance attribute dictionary. -/
def lookupAttr (s : String) : List (String × Value) → Option Value
  | [] => none
  | (t, v) :: r => if t = s then some v else lookupAttr s r

/-- Embedding of `getattr(node, name)` restricted to the names the source
ever reads: the four location coordinates and `symref` are dataclass
fields present on every node (value `None` when unset); every other name
is an instance attribute, absent (`Option.none`, i.e. `AttributeError`)
when not in the dictionary.  (The degenerate names `_fields`/`_attribs`,
which in Python would return the name tuples themselves, are not
special-cased: they would be non-node, non-list values skipped by every
consumer in the source.) -/
def getattr? (n : ASTNode) (s : String) : Option Value :=
  if s = "lineno" then some (optIntVal n.lineno)
  else if s = "col_offset" then some (optIntVal n.col_offset)
  else if s = "end_lineno" then some (optIntVal n.end_lineno)
  else if s = "end_col_offset" then some (optIntVal n.end_col_offset)
  else match lookupAttr s n.attrs with
    | some v => some v
    | none => if s = "symref" then some .vnone else none

/-- Embedding of `iter_fields`: for each declared field name, yield the
pair (name, value), silently skipping names whose attribute is absent. -/
def iter_fields (n : ASTNode) : List (String × Value) :=
  n.fields.filterMap fun s => (getattr? n s).map fun v => (s, v)

/-- Embedding of `iter_attribs`: same as `iter_fields` over `_attribs`. -/
def iter_attribs (n : ASTNode) : List (String × Value) :=
  n.attribs.filterMap fun s => (getattr? n s).map fun v => (s, v)

/-- The direct child nodes contributed by one attribute/field value, per
the `isinstance` logic of `iter_child_nodes`: a node is yielded, the
node elements of a list are yielded in order, anything else contributes
nothing. -/
def childrenOfValue : Value → List ASTNode
  | .node a => [a]
  | .vlist vs => vs.filterMap fun v => match v with
      | .node a => some a
      | _ => none
  | _ => []

/-- Embedding of `iter_child_nodes`: children of attribute values first,
then children of field values. -/
def iter_child_nodes (n : ASTNode) : List ASTNode :=
  (iter_attribs n).flatMap (fun p => childrenOfValue p.2) ++
    (iter_fields n).flatMap (fun p => childrenOfValue p.2)

mutual

/-- Structural size of a value, used as a termination measure. -/
def sizeV : Value → Nat
  | .node a => 1 + sizeN a
  | .vlist vs => 1 + sizeVs vs
  | _ => 1

/-- Total size of a list of values. -/
def sizeVs : List Value → Nat
  | [] => 0
  | v :: r => 1 + sizeV v + sizeVs r

/-- Structural size of a node. -/
def sizeN : ASTNode → Nat
  | .mk _ _ _ _ _ _ _ attrs => 1 + sizeAttrs attrs

/-- Total size of an attribute dictionary. -/
def sizeAttrs : List (String × Value) → Nat
  | [] => 0
  | (_, v) :: r => 1 + sizeV v + sizeAttrs r

end

theorem sizeVs_of_mem {v : Value} {vs : List Value} (h : v ∈ vs) :
    sizeV v ≤ sizeVs vs := by
  induction vs with
  | nil => cases h
  | cons w r ih =>
    rcases List.mem_cons.mp h with h | h
    · subst h; simp only [sizeVs]; omega
    · have := ih h; simp only [sizeVs]; omega

theorem sizeAttrs_of_lookup {s : String} {attrs : List (String × Value)}
    {v : Value} (h : lookupAttr s attrs = some v) :
    sizeV v ≤ sizeAttrs attrs := by
  induction attrs with
  | nil => simp [lookupAttr] at h
  | cons p r ih =>
    obtain ⟨t, w⟩ := p
    simp only [lookupAttr] at h
    by_cases ht : t = s
    · rw [if_pos ht] at h
      have : w = v := by injection h
      subst this; simp only [sizeAttrs]; omega
    · rw [if_neg ht] at h
      have := ih h; simp only [sizeAttrs]; omega

theorem childrenOfValue_size {c : ASTNode} {v : Value}
    (h : c ∈ childrenOfValue v) : sizeN c < sizeV v := by
  cases v with
  | node a =>
    simp only [childrenOfValue, List.mem_singleton] at h
    subst h; simp only [sizeV]; omega
  | vlist vs =>
    simp only [childrenOfValue, List.mem_filterMap] at h
    obtain ⟨w, hw, hc⟩ := h
    have h1 := sizeVs_of_mem hw
    have h2 : sizeN c < sizeV w := by
      cases w with
      | node a =>
        have : a = c := by simpa using hc
        subst this; simp only [sizeV]; omega
      | vlist _ => simp at hc
      | vint _ => simp at hc
      | vstr _ => simp at hc
      | vnone => simp at hc
    simp only [sizeV]
    omega
  | vint _ => simp [childrenOfValue] at h
  | vstr _ => simp [childrenOfValue] at h
  | vnone => simp [childrenOfValue] at h

theorem getattr?_cases {n : ASTNode} {s : String} {v : Value}
    (h : getattr? n s = some v) :
    lookupAttr s n.attrs = some v ∨ (∃ x, v = optIntVal x) ∨ v = .vnone := by
  unfold getattr? at h
  split at h
  · exact Or.inr (Or.inl ⟨n.lineno, by simpa using h.symm⟩)
  · split at h
    · exact Or.inr (Or.inl ⟨n.col_offset, by simpa using h.symm⟩)
    · split at h
      · exact Or.inr (Or.inl ⟨n.end_lineno, by simpa using h.symm⟩)
      · split at h
        · exact Or.inr (Or.inl ⟨n.end_col_offset, by simpa using h.symm⟩)
        · revert h; split
          · intro h; exact Or.inl (by simp_all)
          · split
            · intro h; exact Or.inr (Or.inr (by simp_all))
            · intro h; simp at h

theorem childrenOfValue_optIntVal (x : Option Int) :
    childrenOfValue (optIntVal x) = [] := by
  cases x <;> simp [optIntVal, childrenOfValue]

/-- Every direct child of a node is structurally smaller than the node. -/
theorem child_size {c n : ASTNode} (h : c ∈ iter_child_nodes n) :
    sizeN c < sizeN n := by
  have main : ∀ {p : String × Value}, p ∈ iter_attribs n ∨ p ∈ iter_fields n →
      c ∈ childrenOfValue p.2 → sizeN c < sizeN n := by
    intro p hp hc
    have hv : getattr? n p.1 = some p.2 := by
      rcases hp with hp | hp
      · simp only [iter_attribs, List.mem_filterMap] at hp
        obtain ⟨s, _, hs⟩ := hp
        cases hg : getattr? n s with
        | none => rw [hg] at hs; simp at hs
        | some w =>
          rw [hg] at hs
          simp only [Option.map_some', Option.some.injEq] at hs
          rw [← hs]; exact hg
      · simp only [iter_fields, List.mem_filterMap] at hp
        obtain ⟨s, _, hs⟩ := hp
        cases hg : getattr? n s with
        | none => rw [hg] at hs; simp at hs
        | some w =>
          rw [hg] at hs
          simp only [Option.map_some', Option.some.injEq] at hs
          rw [← hs]; exact hg
    rcases getattr?_cases hv with hl | ⟨x, hx⟩ | hx
    · have h1 := childrenOfValue_size hc
      have h2 := sizeAttrs_of_lookup hl
      cases n with
      | mk cn fs ats l co el ec attrs => simp [sizeN, ASTNode.attrs] at h2 ⊢; omega
    · rw [hx, childrenOfValue_optIntVal] at hc; cases hc
    · rw [hx] at hc; simp [childrenOfValue] at hc
  simp only [iter_child_nodes, List.mem_append, List.mem_flatMap] at h
  rcases h with ⟨p, hp, hc⟩ | ⟨p, hp, hc⟩
  · exact main (Or.inl hp) hc
  · exact main (Or.inr hp) hc

/-- Walk weight of a node: one plus the total weight of its direct
children, counted with the multiplicity with which `iter_child_nodes`
yields them.  This is the number of elements the queue-based `walk`
eventually yields starting from the node, and serves as the termination
measure for the breadth-first traversal. -/
def walkW (n : ASTNode) : Nat :=
  1 + ((iter_child_nodes n).attach.map fun c => walkW c.1).sum
termination_by sizeN n
decreasing_by exact child_size c.2

theorem attach_map_eq {α β : Type} (l : List α) (f : α → β) :
    (l.attach.map fun x => f x.1) = l.map f := by
  rw [show (fun x : {x // x ∈ l} => f x.1) = f ∘ Subtype.val by rfl,
    ← List.map_map, List.attach_map_subtype_val]

theorem walkW_eq (n : ASTNode) :
    walkW n = 1 + ((iter_child_nodes n).map walkW).sum := by
  rw [walkW, attach_map_eq]

theorem walkW_pos (n : ASTNode) : 1 ≤ walkW n := by
  rw [walkW_eq]; omega

/-- Total walk weight of a queue. -/
def queueW (q : List ASTNode) : Nat := (q.map walkW).sum

theorem queueW_append (q r : List ASTNode) :
    queueW (q ++ r) = queueW q + queueW r := by
  simp [queueW]

theorem queueW_children (n : ASTNode) :
    queueW (iter_child_nodes n) + 1 = walkW n := by
  rw [walkW_eq]; simp [queueW]; omega

/-- Embedding of the loop of `walk`: a first-in-first-out queue is
repeatedly popped at the front, the popped node is yielded, and its
children are appended at the back. -/
def walkAux (q : List ASTNode) : List ASTNode :=
  match q with
  | [] => []
  | n :: rest => n :: walkAux (rest ++ iter_child_nodes n)
termination_by queueW q
decreasing_by
  rw [queueW_append]
  have h1 := queueW_children n
  have h2 : queueW (n :: rest) = walkW n + queueW rest := by
    simp [queueW]
  omega

/-- Embedding of `walk(node)`: the traversal starting from the queue
containing just the node. -/
def walkList (n : ASTNode) : List ASTNode := walkAux [n]

theorem walkAux_nil : walkAux [] = [] := by
  simp [walkAux]

theorem walkAux_cons (n : ASTNode) (rest : List ASTNode) :
    walkAux (n :: rest) = n :: walkAux (rest ++ iter_child_nodes n) := by
  simp [walkAux]

/-- Queue decomposition: the elements currently in the queue are yielded
first, in order, and only then the traversal continues from their
children.  Generalised over a second queue segment to make the induction
go through. -/
theorem walkAux_split (q₁ : List ASTNode) : ∀ q₂ : List ASTNode,
    walkAux (q₁ ++ q₂) =
      q₁ ++ walkAux (q₂ ++ q₁.flatMap iter_child_nodes) := by
  induction q₁ with
  | nil => intro q₂; simp
  | cons n q₁' ih =>
    intro q₂
    rw [List.cons_append, walkAux_cons, List.append_assoc, ih (q₂ ++ iter_child_nodes n)]
    simp [walkAux_cons]

theorem queueW_flatMap (r : List ASTNode) :
    queueW (r.flatMap iter_child_nodes) + r.length = queueW r := by
  induction r with
  | nil => simp [queueW]
  | cons m r' ihr =>
    have hm := queueW_children m
    have h2 : queueW ((m :: r').flatMap iter_child_nodes) =
        queueW (iter_child_nodes m) + queueW (r'.flatMap iter_child_nodes) := by
      simp [queueW]
    have h3 : queueW (m :: r') = walkW m + queueW r' := by simp [queueW]
    simp only [h2, List.length_cons, h3]
    omega

theorem queueW_flatMap_lt (m : ASTNode) (r : List ASTNode) :
    queueW ((m :: r).flatMap iter_child_nodes) < queueW (m :: r) := by
  have h1 := queueW_flatMap (m :: r)
  simp only [List.length_cons] at h1
  omega

/-- Reference breadth-first enumeration by levels: the whole current
level is emitted, then the concatenation of all its children (in
`iter_child_nodes` order) forms the next level. -/
def bfsRounds : List ASTNode → List ASTNode
  | [] => []
  | n :: rest => (n :: rest) ++ bfsRounds ((n :: rest).flatMap iter_child_nodes)
termination_by q => queueW q
decreasing_by
  have h1 := queueW_flatMap (n :: rest)
  simp only [List.length_cons] at h1
  omega

theorem forall₂_app {α β : Type} {R : α → β → Prop} {l₁ l₃ : List α}
    {l₂ l₄ : List β} (h1 : List.Forall₂ R l₁ l₂) (h2 : List.Forall₂ R l₃ l₄) :
    List.Forall₂ R (l₁ ++ l₃) (l₂ ++ l₄) :=
  List.rel_append h1 h2

/-- The queue-based walk enumerates exactly the breadth-first levels. -/
theorem walkAux_eq_bfsRounds (q : List ASTNode) : walkAux q = bfsRounds q := by
  cases q with
  | nil => simp [walkAux_nil, bfsRounds]
  | cons n rest =>
    rw [bfsRounds]
    have hsplit := walkAux_split (n :: rest) []
    simp only [List.append_nil, List.nil_append] at hsplit
    rw [hsplit]
    congr 1
    exact walkAux_eq_bfsRounds ((n :: rest).flatMap iter_child_nodes)
termination_by queueW q
decreasing_by
  exact queueW_flatMap_lt _ _

/-- Simulation lemma for the breadth-first walk: a relation that is
preserved pointwise by `iter_child_nodes` is preserved pointwise by the
whole traversal. -/
theorem walkAux_forall₂ (R : ASTNode → ASTNode → Prop)
    (hR : ∀ a b, R a b →
      List.Forall₂ R (iter_child_nodes a) (iter_child_nodes b))
    (q q' : List ASTNode) (h : List.Forall₂ R q q') :
    List.Forall₂ R (walkAux q) (walkAux q') := by
  cases h with
  | nil => simp [walkAux_nil]
  | @cons a b l₁ l₂ hab hl =>
    rw [walkAux_cons, walkAux_cons]
    exact List.Forall₂.cons hab
      (walkAux_forall₂ R hR (l₁ ++ iter_child_nodes a)
        (l₂ ++ iter_child_nodes b) (forall₂_app hl (hR a b hab)))
termination_by queueW q
decreasing_by
  rw [queueW_append]
  have h1 := queueW_children a
  have h2 : queueW (a :: l₁) = walkW a + queueW l₁ := by simp [queueW]
  omega

/-! ### Location utilities (`get_source_segment` and friends) -/

/-- Python slice `s[:k]` on a string: a negative bound counts from the
end, and the bound is clamped into range. -/
def pySliceTo (s : String) (k : Int) : String :=
  let n : Int := s.length
  let k' := if k < 0 then k + n else k
  ⟨s.data.take (max 0 (min k' n)).toNat⟩

/-- Python slice `s[k:]` on a string. -/
def pySliceFrom (s : String) (k : Int) : String :=
  let n : Int := s.length
  let k' := if k < 0 then k + n else k
  ⟨s.data.drop (max 0 (min k' n)).toNat⟩

/-- Python read `l[i]` on a list: a negative index counts from the end;
an out-of-range index raises IndexError. -/
def pyIdx {α : Type} (l : List α) (i : Int) : Except String α :=
  let j := if i < 0 then i + l.length else i
  if j < 0 then .error "IndexError"
  else match l.get? j.toNat with
    | some a => .ok a
    | none => .error "IndexError"

/-- Python write `l[i] = a` on a list, same index discipline as `pyIdx`. -/
def pySetIdx {α : Type} (l : List α) (i : Int) (a : α) : Except String (List α) :=
  let j := if i < 0 then i + l.length else i
  if j < 0 then .error "IndexError"
  else if j < (l.length : Int) then .ok (l.set j.toNat a)
  else .error "IndexError"

/-- Python `for _ in range(k): lines.pop(0)`: popping the front `k`
times, raising IndexError on an empty list. -/
def popFrontN {α : Type} : Nat → List α → Except String (List α)
  | 0, l => .ok l
  | _ + 1, [] => .error "IndexError"
  | k + 1, _ :: l => popFrontN k l

/-- Embedding of the line-splitting loop of `get_source_segment`: walk
the characters of the source, breaking the loop as soon as the number of
completed lines equals `end_lineno` (checked at the top of each
iteration), and after the loop append the partial current line if it is
nonempty. -/
def buildLines (end_lineno : Int) : List Char → List String → String → List String
  | [], lines, cur => if cur ≠ "" then lines ++ [cur] else lines
  | c :: cs, lines, cur =>
    if (lines.length : Int) = end_lineno then
      (if cur ≠ "" then lines ++ [cur] else lines)
    else if c = '\n' then buildLines end_lineno cs (lines ++ [cur]) ""
    else buildLines end_lineno cs lines (cur.push c)

/-- Embedding of `get_source_segment(source, node, padded)`: returns
`Except.ok none` when any of the four coordinates is unset (the None
check happens before the padded override of the start column), otherwise
slices the split lines exactly as the source does; Python exceptions
(IndexError on out-of-range coordinates) surface as `Except.error`. -/
def get_source_segment (source : String) (node : ASTNode)
    (padded : Bool := false) : Except String (Option String) :=
  match node.lineno, node.col_offset, node.end_lineno, node.end_col_offset with
  | some lineno, some col₀, some end_lineno, some end_col_offset =>
    let col_offset : Int := if padded then 0 else col₀
    let lines := buildLines end_lineno source.data [] ""
    match popFrontN (lineno - 1).toNat lines with
    | .error e => .error e
    | .ok lines =>
      match pyIdx lines (end_lineno - lineno) with
      | .error e => .error e
      | .ok cur =>
        match pySetIdx lines (end_lineno - lineno)
            (pySliceTo cur (end_col_offset + 1)) with
        | .error e => .error e
        | .ok lines =>
          match lines with
          | [] => .error "IndexError"
          | first :: rest =>
            .ok (some (String.intercalate "\n"
              (pySliceFrom first col_offset :: rest)))
  | _, _, _, _ => .ok none

/-! ### `fix_missing_locations` and `increment_lineno`

Both source functions mutate the node objects of the tree in place
(`_fix` recursing over `iter_child_nodes`, `increment_lineno` looping
over `walk`).  On a tree-shaped object graph — the only graphs this
embedding can express — the mutation is equivalent to rebuilding the
tree: a value reachable under an attribute name is a child position
exactly when that name occurs in `_attribs` or `_fields`, and a node
yielded `m` times by `iter_child_nodes` (a name listed in both tuples,
or listed twice) is visited `m` times by `walk`, hence incremented by
`m * delta`; repeated visits of `_fix` are idempotent. -/

/-- Occurrence count of a name in a name tuple. -/
def countS (s : String) : List String → Nat
  | [] => 0
  | t :: r => (if t = s then 1 else 0) + countS s r

/-- Multiplicity with which the attribute named `s` is yielded by
`iter_attribs`/`iter_fields` for declared name tuples `ats`/`fs`. -/
def multOf (ats fs : List String) (s : String) : Nat :=
  countS s ats + countS s fs

mutual

/-- Pure embedding of the in-place `_fix` helper of
`fix_missing_locations`: each unset coordinate is filled with the
inherited one, each set coordinate becomes the new inherited value, and
the children (the values stored under declared attribute/field names)
are rebuilt with the updated inherited coordinates. -/
def fixAST (l c el ec : Int) : ASTNode → ASTNode
  | .mk cn fs ats l₀ c₀ el₀ ec₀ attrs =>
    .mk cn fs ats (some (l₀.getD l)) (some (c₀.getD c))
      (some (el₀.getD el)) (some (ec₀.getD ec))
      (fixAttrs (l₀.getD l) (c₀.getD c) (el₀.getD el) (ec₀.getD ec) ats fs attrs)

/-- Rebuild of the attribute dictionary under `_fix`: only values stored
under a declared attribute or field name are child positions reached by
`iter_child_nodes`. -/
def fixAttrs (l c el ec : Int) (ats fs : List String) :
    List (String × Value) → List (String × Value)
  | [] => []
  | (s, v) :: r =>
    (s, if s ∈ ats ∨ s ∈ fs then fixValue l c el ec v else v) ::
      fixAttrs l c el ec ats fs r

/-- Rebuild of one child-position value under `_fix`. -/
def fixValue (l c el ec : Int) : Value → Value
  | .node a => .node (fixAST l c el ec a)
  | .vlist vs => .vlist (fixElems l c el ec vs)
  | v => v

/-- Rebuild of the elements of a child-position list under `_fix`;
non-node elements pass through untouched. -/
def fixElems (l c el ec : Int) : List Value → List Value
  | [] => []
  | .node a :: r => .node (fixAST l c el ec a) :: fixElems l c el ec r
  | .vlist vs :: r => .vlist vs :: fixElems l c el ec r
  | .vint i :: r => .vint i :: fixElems l c el ec r
  | .vstr t :: r => .vstr t :: fixElems l c el ec r
  | .vnone :: r => .vnone :: fixElems l c el ec r

end

/-- Embedding of `fix_missing_locations(node)`: the recursive fill is
started with coordinates (1, 0, 1, 0) and the (rebuilt) root returned. -/
def fix_missing_locations (n : ASTNode) : ASTNode := fixAST 1 0 1 0 n

mutual

/-- Pure embedding of `increment_lineno(node, n)` restricted to a
subtree that `walk` reaches with multiplicity one: set start and end
lines are shifted by `d`, unset ones and the columns are untouched, and
each child position is rebuilt with `d` scaled by the multiplicity with
which `walk` visits it. -/
def incAST (d : Int) : ASTNode → ASTNode
  | .mk cn fs ats l c el ec attrs =>
    .mk cn fs ats (l.map (· + d)) c (el.map (· + d)) ec
      (incAttrs d ats fs attrs)

/-- Rebuild of the attribute dictionary under `increment_lineno`. -/
def incAttrs (d : Int) (ats fs : List String) :
    List (String × Value) → List (String × Value)
  | [] => []
  | (s, v) :: r =>
    (s, if multOf ats fs s = 0 then v
        else incValue (d * (multOf ats fs s : Int)) v) ::
      incAttrs d ats fs r

/-- Rebuild of one child-position value under `increment_lineno`. -/
def incValue (d : Int) : Value → Value
  | .node a => .node (incAST d a)
  | .vlist vs => .vlist (incElems d vs)
  | v => v

/-- Rebuild of the elements of a child-position list under
`increment_lineno`; non-node elements pass through untouched. -/
def incElems (d : Int) : List Value → List Value
  | [] => []
  | .node a :: r => .node (incAST d a) :: incElems d r
  | .vlist vs :: r => .vlist vs :: incElems d r
  | .vint i :: r => .vint i :: incElems d r
  | .vstr t :: r => .vstr t :: incElems d r
  | .vnone :: r => .vnone :: incElems d r

end

/-- Embedding of `increment_lineno(node, n=1)`. -/
def increment_lineno (n : ASTNode) (d : Int := 1) : ASTNode := incAST d n

/-- List of strings without repetition. -/
def noDupB : List String → Bool
  | [] => true
  | s :: r => (!(decide (s ∈ r))) && noDupB r

/-- A node whose declared attribute and field names are pairwise
distinct: `iter_child_nodes` then yields each child exactly once, which
is what `walk`'s "every descendant once" reading requires. -/
def dupFree (n : ASTNode) : Bool := noDupB (n.attribs ++ n.fields)

/-- A proper tree: every node of it is `dupFree`, so `walk` visits each
node exactly once. -/
def wfTree (n : ASTNode) : Bool :=
  dupFree n && ((iter_child_nodes n).attach.all fun c => wfTree c.1)
termination_by sizeN n
decreasing_by exact child_size c.2

/-! ### Child enumeration by declared name, and commuting lemmas -/

/-- Children contributed by one declared name, written as §4.3 of the
spec describes `iter_child_nodes`: take the attribute's value if set,
yield it if it is a node, yield its node elements in order if it is a
sequence, nothing otherwise. -/
def childrenAt (n : ASTNode) (s : String) : List ASTNode :=
  match getattr? n s with
  | some v => childrenOfValue v
  | none => []

/-- Specification-side child enumeration: attribute names first in
declared order, then field names in declared order. -/
def specChildren (n : ASTNode) : List ASTNode :=
  n.attribs.flatMap (childrenAt n) ++ n.fields.flatMap (childrenAt n)

theorem filterMap_children_eq (n : ASTNode) (names : List String) :
    ((names.filterMap fun s => (getattr? n s).map fun v => (s, v)).flatMap
        fun p => childrenOfValue p.2) =
      names.flatMap (childrenAt n) := by
  induction names with
  | nil => rfl
  | cons s r ih =>
    cases hg : getattr? n s with
    | none => simp [List.filterMap_cons, hg, childrenAt, ih]
    | some v => simp [List.filterMap_cons, hg, childrenAt, ih]

/-- The generator-style `iter_child_nodes` of the source agrees with the
per-name enumeration. -/
theorem iter_child_nodes_eq_specChildren (n : ASTNode) :
    iter_child_nodes n = specChildren n := by
  unfold iter_child_nodes specChildren iter_attribs iter_fields
  rw [filterMap_children_eq, filterMap_children_eq]

/-- Pointwise description of `Forall₂` against a mapped list. -/
theorem forall₂_map_self {α β : Type} {R : α → β → Prop} (f : α → β)
    (l : List α) (h : ∀ x ∈ l, R x (f x)) :
    List.Forall₂ R l (l.map f) := by
  induction l with
  | nil => exact List.Forall₂.nil
  | cons a r ih =>
    exact List.Forall₂.cons (h a (List.mem_cons_self a r))
      (ih fun x hx => h x (List.mem_cons_of_mem a hx))

theorem flatMap_map_of_congr {α β : Type} (names : List String)
    (g : String → List α) (g' : String → List β) (f : α → β)
    (h : ∀ s ∈ names, g' s = (g s).map f) :
    names.flatMap g' = (names.flatMap g).map f := by
  induction names with
  | nil => rfl
  | cons s r ih =>
    simp only [List.flatMap_cons, List.map_append]
    rw [h s (List.mem_cons_self s r), ih fun x hx => h x (List.mem_cons_of_mem s hx)]

/-! Accessors of the rebuilt nodes. -/

theorem fixAST_className (l c el ec : Int) (n : ASTNode) :
    (fixAST l c el ec n).className = n.className := by
  cases n; rfl

theorem fixAST_fields (l c el ec : Int) (n : ASTNode) :
    (fixAST l c el ec n).fields = n.fields := by
  cases n; rfl

theorem fixAST_attribs (l c el ec : Int) (n : ASTNode) :
    (fixAST l c el ec n).attribs = n.attribs := by
  cases n; rfl

theorem fixAST_locs (l c el ec : Int) (n : ASTNode) :
    (fixAST l c el ec n).lineno = some (n.lineno.getD l) ∧
    (fixAST l c el ec n).col_offset = some (n.col_offset.getD c) ∧
    (fixAST l c el ec n).end_lineno = some (n.end_lineno.getD el) ∧
    (fixAST l c el ec n).end_col_offset = some (n.end_col_offset.getD ec) := by
  cases n
  exact ⟨rfl, rfl, rfl, rfl⟩

theorem fixAST_attrs (l c el ec : Int) (n : ASTNode) :
    (fixAST l c el ec n).attrs =
      fixAttrs (n.lineno.getD l) (n.col_offset.getD c) (n.end_lineno.getD el)
        (n.end_col_offset.getD ec) n.attribs n.fields n.attrs := by
  cases n; rfl

theorem incAST_className (d : Int) (n : ASTNode) :
    (incAST d n).className = n.className := by
  cases n; rfl

theorem incAST_fields (d : Int) (n : ASTNode) :
    (incAST d n).fields = n.fields := by
  cases n; rfl

theorem incAST_attribs (d : Int) (n : ASTNode) :
    (incAST d n).attribs = n.attribs := by
  cases n; rfl

theorem incAST_locs (d : Int) (n : ASTNode) :
    (incAST d n).lineno = n.lineno.map (· + d) ∧
    (incAST d n).col_offset = n.col_offset ∧
    (incAST d n).end_lineno = n.end_lineno.map (· + d) ∧
    (incAST d n).end_col_offset = n.end_col_offset := by
  cases n
  exact ⟨rfl, rfl, rfl, rfl⟩

theorem incAST_attrs (d : Int) (n : ASTNode) :
    (incAST d n).attrs = incAttrs d n.attribs n.fields n.attrs := by
  cases n; rfl

/-! Lookup in the rebuilt dictionaries. -/

theorem lookupAttr_fixAttrs (s : String) (l c el ec : Int)
    (ats fs : List String) (attrs : List (String × Value)) :
    lookupAttr s (fixAttrs l c el ec ats fs attrs) =
      (lookupAttr s attrs).map fun v =>
        if s ∈ ats ∨ s ∈ fs then fixValue l c el ec v else v := by
  induction attrs with
  | nil => rfl
  | cons p r ih =>
    obtain ⟨t, v⟩ := p
    by_cases ht : t = s
    · subst ht; simp [fixAttrs, lookupAttr]
    · simp [fixAttrs, lookupAttr, ht, ih]

theorem lookupAttr_incAttrs (s : String) (d : Int)
    (ats fs : List String) (attrs : List (String × Value)) :
    lookupAttr s (incAttrs d ats fs attrs) =
      (lookupAttr s attrs).map fun v =>
        if multOf ats fs s = 0 then v
        else incValue (d * (multOf ats fs s : Int)) v := by
  induction attrs with
  | nil => rfl
  | cons p r ih =>
    obtain ⟨t, v⟩ := p
    by_cases ht : t = s
    · subst ht; simp [incAttrs, lookupAttr]
    · simp [incAttrs, lookupAttr, ht, ih]

/-! Children of rebuilt values. -/

theorem childrenOfValue_fixValue (l c el ec : Int) (v : Value) :
    childrenOfValue (fixValue l c el ec v) =
      (childrenOfValue v).map (fixAST l c el ec) := by
  cases v with
  | node a => rfl
  | vlist vs =>
    simp only [fixValue, childrenOfValue]
    induction vs with
    | nil => rfl
    | cons w r ihw =>
      cases w with
      | node a => simp [fixElems, List.filterMap_cons, ihw]
      | vlist _ => simp [fixElems, List.filterMap_cons, ihw]
      | vint _ => simp [fixElems, List.filterMap_cons, ihw]
      | vstr _ => simp [fixElems, List.filterMap_cons, ihw]
      | vnone => simp [fixElems, List.filterMap_cons, ihw]
  | vint _ => rfl
  | vstr _ => rfl
  | vnone => rfl

theorem countS_eq_zero {s : String} {l : List String} (h : s ∉ l) :
    countS s l = 0 := by
  induction l with
  | nil => rfl
  | cons t r ih =>
    have hts : ¬t = s := fun he => h (he ▸ List.mem_cons_self t r)
    have hsr : s ∉ r := fun hm => h (List.mem_cons_of_mem t hm)
    simp [countS, hts, ih hsr]

theorem noDupB_gives {l₁ l₂ : List String} (h : noDupB (l₁ ++ l₂) = true) :
    noDupB l₁ = true ∧ noDupB l₂ = true ∧ ∀ s ∈ l₁, s ∉ l₂ := by
  induction l₁ with
  | nil => exact ⟨rfl, h, fun s hs => absurd hs (List.not_mem_nil s)⟩
  | cons t r ih =>
    rw [List.cons_append, noDupB, Bool.and_eq_true] at h
    obtain ⟨ht, hr⟩ := h
    obtain ⟨h1, h2, h3⟩ := ih hr
    have htm : t ∉ r ++ l₂ := by simpa using ht
    refine ⟨?_, h2, ?_⟩
    · rw [noDupB, Bool.and_eq_true]
      exact ⟨by simpa using fun hm => htm (List.mem_append_left l₂ hm), h1⟩
    · intro s hs
      rcases List.mem_cons.mp hs with rfl | hs
      · exact fun hm => htm (List.mem_append_right r hm)
      · exact h3 s hs

theorem countS_eq_one {s : String} {l : List String}
    (hd : noDupB l = true) (h : s ∈ l) : countS s l = 1 := by
  induction l with
  | nil => cases h
  | cons t r ih =>
    rw [noDupB, Bool.and_eq_true] at hd
    obtain ⟨ht, hr⟩ := hd
    have htr : t ∉ r := by simpa using ht
    rcases List.mem_cons.mp h with rfl | hs
    · simp [countS, countS_eq_zero htr]
    · have hts : ¬t = s := fun he => htr (he ▸ hs)
      simp [countS, hts, ih hr hs]

/-- Under `dupFree`, every declared attribute or field name has
multiplicity exactly one. -/
theorem multOf_eq_one {n : ASTNode} {s : String} (hd : dupFree n = true)
    (hs : s ∈ n.attribs ∨ s ∈ n.fields) : multOf n.attribs n.fields s = 1 := by
  unfold dupFree at hd
  obtain ⟨h1, h2, h3⟩ := noDupB_gives hd
  rcases hs with hs | hs
  · rw [multOf, countS_eq_one h1 hs, countS_eq_zero (h3 s hs)]
  · have : s ∉ n.attribs := fun hm => h3 s hm hs
    rw [multOf, countS_eq_zero this, countS_eq_one h2 hs]

theorem childrenOfValue_incValue (d : Int) (v : Value) :
    childrenOfValue (incValue d v) =
      (childrenOfValue v).map (incAST d) := by
  cases v with
  | node a => rfl
  | vlist vs =>
    simp only [incValue, childrenOfValue]
    induction vs with
    | nil => rfl
    | cons w r ihw =>
      cases w with
      | node a => simp [incElems, List.filterMap_cons, ihw]
      | vlist _ => simp [incElems, List.filterMap_cons, ihw]
      | vint _ => simp [incElems, List.filterMap_cons, ihw]
      | vstr _ => simp [incElems, List.filterMap_cons, ihw]
      | vnone => simp [incElems, List.filterMap_cons, ihw]
  | vint _ => rfl
  | vstr _ => rfl
  | vnone => rfl

theorem childrenAt_fixAST (l c el ec : Int) (n : ASTNode) (s : String)
    (hs : s ∈ n.attribs ∨ s ∈ n.fields) :
    childrenAt (fixAST l c el ec n) s =
      (childrenAt n s).map
        (fixAST (n.lineno.getD l) (n.col_offset.getD c)
          (n.end_lineno.getD el) (n.end_col_offset.getD ec)) := by
  unfold childrenAt getattr?
  by_cases h1 : s = "lineno"
  · simp [h1, (fixAST_locs l c el ec n).1, childrenOfValue_optIntVal, optIntVal,
      childrenOfValue]
    cases n.lineno <;> rfl
  by_cases h2 : s = "col_offset"
  · simp [h1, h2, (fixAST_locs l c el ec n).2.1, childrenOfValue_optIntVal,
      optIntVal, childrenOfValue]
    cases n.col_offset <;> rfl
  by_cases h3 : s = "end_lineno"
  · simp [h1, h2, h3, (fixAST_locs l c el ec n).2.2.1, childrenOfValue_optIntVal,
      optIntVal, childrenOfValue]
    cases n.end_lineno <;> rfl
  by_cases h4 : s = "end_col_offset"
  · simp [h1, h2, h3, h4, (fixAST_locs l c el ec n).2.2.2,
      childrenOfValue_optIntVal, optIntVal, childrenOfValue]
    cases n.end_col_offset <;> rfl
  simp only [h1, h2, h3, h4, if_false]
  rw [fixAST_attrs, lookupAttr_fixAttrs]
  cases hl : lookupAttr s n.attrs with
  | some v =>
    simp only [Option.map_some', if_pos hs]
    exact childrenOfValue_fixValue _ _ _ _ v
  | none =>
    by_cases h5 : s = "symref"
    · simp [h5, childrenOfValue]
    · simp [h5]

theorem childrenAt_incAST (d : Int) (n : ASTNode) (s : String)
    (hmult : multOf n.attribs n.fields s = 1) :
    childrenAt (incAST d n) s = (childrenAt n s).map (incAST d) := by
  unfold childrenAt getattr?
  by_cases h1 : s = "lineno"
  · simp [h1, (incAST_locs d n).1, childrenOfValue_optIntVal, optIntVal,
      childrenOfValue]
    cases n.lineno <;> simp [optIntVal, childrenOfValue]
  by_cases h2 : s = "col_offset"
  · simp [h1, h2, (incAST_locs d n).2.1]
    cases n.col_offset <;> simp [optIntVal, childrenOfValue]
  by_cases h3 : s = "end_lineno"
  · simp [h1, h2, h3, (incAST_locs d n).2.2.1]
    cases n.end_lineno <;> simp [optIntVal, childrenOfValue]
  by_cases h4 : s = "end_col_offset"
  · simp [h1, h2, h3, h4, (incAST_locs d n).2.2.2]
    cases n.end_col_offset <;> simp [optIntVal, childrenOfValue]
  simp only [h1, h2, h3, h4, if_false]
  rw [incAST_attrs, lookupAttr_incAttrs]
  cases hl : lookupAttr s n.attrs with
  | some v =>
    rw [hmult]
    simp only [Option.map_some']
    norm_num
    exact childrenOfValue_incValue d v
  | none =>
    by_cases h5 : s = "symref"
    · simp [h5, childrenOfValue]
    · simp [h5]

/-- `fix` commutes with child enumeration: the children of the rebuilt
node are the rebuilt children, rebuilt with the coordinates the parent
passes down. -/
theorem iter_child_nodes_fixAST (l c el ec : Int) (n : ASTNode) :
    iter_child_nodes (fixAST l c el ec n) =
      (iter_child_nodes n).map
        (fixAST (n.lineno.getD l) (n.col_offset.getD c)
          (n.end_lineno.getD el) (n.end_col_offset.getD ec)) := by
  rw [iter_child_nodes_eq_specChildren, iter_child_nodes_eq_specChildren]
  unfold specChildren
  rw [fixAST_attribs, fixAST_fields, List.map_append]
  congr 1
  · exact flatMap_map_of_congr _ _ _ _
      fun s hs => childrenAt_fixAST l c el ec n s (Or.inl hs)
  · exact flatMap_map_of_congr _ _ _ _
      fun s hs => childrenAt_fixAST l c el ec n s (Or.inr hs)

/-- Specification-side rendering of the top-down fill contract of
`fix_missing_locations` (spec §4.5), relating each original node to its
fixed counterpart under the coordinates inherited from the nearest
ancestor: a coordinate left unset is set to the inherited value, a set
coordinate is kept and becomes the new inherited value passed down to
the children (position by position over `iter_child_nodes`), and
nothing else about the node changes. -/
inductive FixSpec : Int → Int → Int → Int → ASTNode → ASTNode → Prop where
  | mk : ∀ (l c el ec : Int) (a b : ASTNode),
      b.className = a.className →
      b.fields = a.fields →
      b.attribs = a.attribs →
      b.lineno = some (a.lineno.getD l) →
      b.col_offset = some (a.col_offset.getD c) →
      b.end_lineno = some (a.end_lineno.getD el) →
      b.end_col_offset = some (a.end_col_offset.getD ec) →
      (iter_child_nodes b).length = (iter_child_nodes a).length →
      (∀ (i : Nat) (ca cb : ASTNode),
        (iter_child_nodes a)[i]? = some ca →
        (iter_child_nodes b)[i]? = some cb →
        FixSpec (a.lineno.getD l) (a.col_offset.getD c)
          (a.end_lineno.getD el) (a.end_col_offset.getD ec) ca cb) →
      FixSpec l c el ec a b

/-- The rebuilt tree satisfies the specification relation: `fixAST`
implements exactly the inherit-unset / pass-down-set rule at every
node. -/
theorem fixAST_spec (a : ASTNode) (l c el ec : Int) :
    FixSpec l c el ec a (fixAST l c el ec a) := by
  obtain ⟨h1, h2, h3, h4⟩ := fixAST_locs l c el ec a
  refine FixSpec.mk l c el ec a _ (fixAST_className l c el ec a)
    (fixAST_fields l c el ec a) (fixAST_attribs l c el ec a) h1 h2 h3 h4 ?_ ?_
  · rw [iter_child_nodes_fixAST]
    simp
  · intro i ca cb hca hcb
    rw [iter_child_nodes_fixAST, List.getElem?_map, hca] at hcb
    have hcb2 : cb = fixAST (a.lineno.getD l) (a.col_offset.getD c)
        (a.end_lineno.getD el) (a.end_col_offset.getD ec) ca := by
      simpa using hcb.symm
    rw [hcb2]
    exact fixAST_spec ca _ _ _ _
termination_by sizeN a
decreasing_by exact child_size (List.getElem?_mem hca)

/-- On a duplicate-free node, `increment_lineno` commutes with child
enumeration. -/
theorem iter_child_nodes_incAST (d : Int) (n : ASTNode)
    (hd : dupFree n = true) :
    iter_child_nodes (incAST d n) = (iter_child_nodes n).map (incAST d) := by
  rw [iter_child_nodes_eq_specChildren, iter_child_nodes_eq_specChildren]
  unfold specChildren
  rw [incAST_attribs, incAST_fields, List.map_append]
  congr 1
  · exact flatMap_map_of_congr _ _ _ _
      fun s hs => childrenAt_incAST d n s (multOf_eq_one hd (Or.inl hs))
  · exact flatMap_map_of_congr _ _ _ _
      fun s hs => childrenAt_incAST d n s (multOf_eq_one hd (Or.inr hs))

theorem attach_all_eq {α : Type} (l : List α) (f : α → Bool) :
    (l.attach.all fun x => f x.1) = l.all f := by
  cases hb : l.all f
  · rw [List.all_eq_false] at hb
    obtain ⟨x, hx, hfx⟩ := hb
    rw [List.all_eq_false]
    exact ⟨⟨x, hx⟩, List.mem_attach l ⟨x, hx⟩, hfx⟩
  · rw [List.all_eq_true] at hb
    rw [List.all_eq_true]
    exact fun p _ => hb p.1 p.2

theorem wfTree_unfold (n : ASTNode) :
    wfTree n = (dupFree n && (iter_child_nodes n).all wfTree) := by
  rw [wfTree, attach_all_eq]

theorem wfTree_dupFree {n : ASTNode} (h : wfTree n = true) :
    dupFree n = true := by
  rw [wfTree_unfold, Bool.and_eq_true] at h
  exact h.1

theorem wfTree_child {n c : ASTNode} (h : wfTree n = true)
    (hc : c ∈ iter_child_nodes n) : wfTree c = true := by
  rw [wfTree_unfold, Bool.and_eq_true, List.all_eq_true] at h
  exact h.2 c hc

mutual

theorem incAST_zero : ∀ n : ASTNode, incAST 0 n = n
  | .mk cn fs ats l c el ec attrs => by
    simp only [incAST]
    have hl : l.map (· + (0 : Int)) = l := by cases l <;> simp
    have hel : el.map (· + (0 : Int)) = el := by cases el <;> simp
    rw [hl, hel, incAttrs_zero ats fs attrs]

theorem incAttrs_zero : ∀ (ats fs : List String)
    (attrs : List (String × Value)), incAttrs 0 ats fs attrs = attrs
  | _, _, [] => rfl
  | ats, fs, (s, v) :: r => by
    simp only [incAttrs]
    rw [incAttrs_zero ats fs r]
    by_cases h : multOf ats fs s = 0
    · rw [if_pos h]
    · rw [if_neg h, zero_mul, incValue_zero v]

theorem incValue_zero : ∀ v : Value, incValue 0 v = v
  | .node a => by rw [incValue, incAST_zero a]
  | .vlist vs => by rw [incValue, incElems_zero vs]
  | .vint _ => rfl
  | .vstr _ => rfl
  | .vnone => rfl

theorem incElems_zero : ∀ vs : List Value, incElems 0 vs = vs
  | [] => rfl
  | .node a :: r => by rw [incElems, incAST_zero a, incElems_zero r]
  | .vlist vs :: r => by rw [incElems, incElems_zero r]
  | .vint _ :: r => by rw [incElems, incElems_zero r]
  | .vstr _ :: r => by rw [incElems, incElems_zero r]
  | .vnone :: r => by rw [incElems, incElems_zero r]

end

/-! ### NodeVisitor / NodeTransformer

`visit` dispatches on `"visit_" + node.__class__.__name__`; a
NodeTransformer instance is modelled by its table of handler methods
(`handlers name = some h` when the subclass defines a method of that
name, with `h` a pure function).  Python's unbounded recursion is
modelled with a fuel parameter (the recursion-depth limit); all claims
about the transformer are settled at concrete inputs where the fuel is
ample. -/

/-- Python `__class__.__name__` for the values the embedding tracks. -/
def pyClassName : Value → String
  | .node a => a.className
  | .vlist _ => "list"
  | .vint _ => "int"
  | .vstr _ => "str"
  | .vnone => "NoneType"

/-- A NodeTransformer subclass, identified by its handler methods. -/
structure NodeTransformer where
  handlers : String → Option (Value → Value)

/-- Python `setattr` on the instance dictionary: replace the value of an
existing key in place, append a new key at the end. -/
def setAttrD : List (String × Value) → String → Value → List (String × Value)
  | [], s, v => [(s, v)]
  | (t, w) :: r, s, v =>
    if t = s then (t, v) :: r else (t, w) :: setAttrD r s v

/-- Python `delattr` on the instance dictionary. -/
def delAttrD : List (String × Value) → String → List (String × Value)
  | [], _ => []
  | (t, w) :: r, s => if t = s then r else (t, w) :: delAttrD r s

/-- Replace a node's instance attribute dictionary. -/
def withAttrs : ASTNode → List (String × Value) → ASTNode
  | .mk cn fs ats l c el ec _, attrs => .mk cn fs ats l c el ec attrs

/-- Embedding of the inner element loop of `NodeTransformer.generic_visit`
over one list-valued attribute: for each element that is a node the
source calls `self.visit(old)` — `old` being the WHOLE list, not the
element — and drops/splices/keeps according to the result; non-node
elements pass through.  `origList` is the list `old` captured by the
loop. -/
def tElems (vis : Value → Except String Value) (origList : List Value) :
    List Value → Except String (List Value)
  | [] => .ok []
  | e :: rest =>
    match e with
    | .node _ => do
      let r ← vis (.vlist origList)
      let tail ← tElems vis origList rest
      match r with
      | .vnone => .ok tail
      | .vlist vs => .ok (vs ++ tail)
      | r => .ok (r :: tail)
    | e => do
      let tail ← tElems vis origList rest
      .ok (e :: tail)

/-- Embedding of one rewrite pass of `NodeTransformer.generic_visit`
over a tuple of declared names (first `_attribs`, then `_fields`): the
attribute values are read lazily from the current node state, lists are
rewritten in place, single nodes are replaced by the visit result or
deleted when the result is `None`. -/
def tNames (vis : Value → Except String Value) :
    List String → ASTNode → Except String ASTNode
  | [], node => .ok node
  | s :: rest, node =>
    match getattr? node s with
    | none => tNames vis rest node
    | some old =>
      match old with
      | .vlist vs => do
        let new ← tElems vis vs vs
        tNames vis rest (withAttrs node (setAttrD node.attrs s (.vlist new)))
      | .node a => do
        let r ← vis (.node a)
        match r with
        | .vnone => tNames vis rest (withAttrs node (delAttrD node.attrs s))
        | r => tNames vis rest (withAttrs node (setAttrD node.attrs s r))
      | _ => tNames vis rest node

/-- Body of `NodeTransformer.generic_visit`, parametrised by the `visit`
callback: rewrite the attribute values, then the field values, and
return the node; on a non-node argument the very first step,
`iter_attribs(node)`, reads `._attribs` and raises AttributeError. -/
def tgenericWith (vis : Value → Except String Value) :
    Value → Except String Value
  | .node n => do
    let n₁ ← tNames vis n.attribs n
    let n₂ ← tNames vis n₁.fields n₁
    .ok (.node n₂)
  | _ => .error "AttributeError"

/-- Embedding of `NodeVisitor.visit` as inherited by NodeTransformer:
dispatch to the handler registered for the value's class name, falling
back to `generic_visit`. -/
def tvisit (t : NodeTransformer) : Nat → Value → Except String Value
  | 0, _ => .error "RecursionError"
  | fuel + 1, v =>
    match t.handlers ("visit_" ++ pyClassName v) with
    | some h => .ok (h v)
    | none => tgenericWith (tvisit t fuel) v

/-- Embedding of `NodeTransformer.generic_visit` called as the entry
point. -/
def tgeneric (t : NodeTransformer) (fuel : Nat) : Value → Except String Value :=
  tgenericWith (tvisit t fuel)

end BadAsdl

namespace AsdlGen

/-!
Embedding of the schema parser of `ast_classgen.py`.  The hand-written
parser matches anchored regular expressions against a prefix of the
remaining input and advances past the match; every regex used is of the
deterministic shape `\s* token \s*`, which is translated here into
whitespace skipping plus literal/character-class matching (`\w` is
rendered with its ASCII meaning, which covers every schema text the
source is meant for).  Python exceptions are `Except.error`; the
`raise ... from e` context chaining is rendered by prefixing the outer
context message to the inner one.  Error texts follow the source, with
the quoted interpolated names rendered as plain concatenation.

The two unbounded `while` loops of the source (the field-list loop and
the constructor loop) and the top-level typedef loop consume at least
one character per iteration, so they are given the input length as
fuel; running out of fuel is impossible on any input but would surface
as an error, never as a `Module`.
-/

/-- Embedding of `Field` of ast_classgen.py. -/
structure Field where
  type_name : String
  field_name : String
  can_none : Bool
  can_many : Bool

/-- Embedding of `Constructor`. -/
structure Constructor where
  ctor_name : String
  fields : List Field

/-- Embedding of `AbstractType` with its two dataclass subclasses
`ProductType` and `SumType`. -/
inductive AbstractType where
  | product : List Field → AbstractType
  | sum : List Constructor → List Field → AbstractType

/-- Embedding of `TypeDef`. -/
structure TypeDef where
  type_name : String
  type_def : AbstractType

/-- Embedding of `Module`. -/
structure Module where
  mod_name : String
  typedefs : List TypeDef

/-- Python regex `\w` (ASCII). -/
def isWordChar (c : Char) : Bool := c.isAlphanum || c = '_'

/-- Python regex `\s`. -/
def isSpaceChar (c : Char) : Bool := c.isWhitespace

/-- Skipping a `\s*`. -/
def dropWs (cs : List Char) : List Char := cs.dropWhile isSpaceChar

mutual

/-- Comment stripping, embedding
`re.sub(r"\-\-(.*)$", "", ..., flags=MULTILINE)`: from the first `--` of
each line everything up to (excluding) the line break is removed. -/
def stripCommentsL : List Char → List Char
  | [] => []
  | '-' :: '-' :: r => skipToNl r
  | c :: r => c :: stripCommentsL r

/-- Skip the remainder of a commented-out line, keeping its newline. -/
def skipToNl : List Char → List Char
  | [] => []
  | '\n' :: r => '\n' :: stripCommentsL r
  | _ :: r => skipToNl r

end

/-- Comment stripping on strings. -/
def stripComments (s : String) : String := String.mk (stripCommentsL s.data)

/-- Literal matching: consume an exact character sequence. -/
def matchLit : List Char → List Char → Option (List Char)
  | [], cs => some cs
  | _ :: _, [] => none
  | p :: ps, c :: cs => if c = p then matchLit ps cs else none

/-- Embedding of the regex `^\s*(\w+)([\?\*\+])?\s+(\w+)\s*` of
`getField`: type name, optional multiplicity marker, mandatory
whitespace, field name, trailing whitespace. -/
def matchFieldHead (cs : List Char) :
    Option (String × Option Char × String × List Char) :=
  let cs₁ := dropWs cs
  let (tn, cs₂) := cs₁.span isWordChar
  if tn.isEmpty then none
  else
    let symRest : Option Char × List Char :=
      match cs₂ with
      | c :: r => if c = '?' ∨ c = '*' ∨ c = '+' then (some c, r) else (none, cs₂)
      | [] => (none, [])
    let (ws, cs₄) := symRest.2.span isSpaceChar
    if ws.isEmpty then none
    else
      let (fn, cs₅) := cs₄.span isWordChar
      if fn.isEmpty then none
      else some (String.mk tn, symRest.1, String.mk fn, dropWs cs₅)

/-- Embedding of `getField`: the marker maps to the two multiplicity
flags through the two membership tests `symbol in "?*"` and
`symbol in "*+"` of the source. -/
def getField (cs : List Char) : Except String (Field × List Char) :=
  match matchFieldHead cs with
  | none => .error "expected field"
  | some (tn, sym, fn, rest) =>
    .ok (⟨tn, fn, sym == some '?' || sym == some '*',
          sym == some '*' || sym == some '+'⟩, rest)

/-- The comma-separated loop of `getFields`. -/
def getFieldsLoop : Nat → List Char → Except String (List Field × List Char)
  | 0, _ => .error "RecursionError"
  | fuel + 1, cs => do
    let (f, cs₁) ← getField cs
    match dropWs cs₁ with
    | ',' :: r => do
      let (fs, rest) ← getFieldsLoop fuel (dropWs r)
      .ok (f :: fs, rest)
    | _ =>
      match dropWs cs₁ with
      | ')' :: r => .ok ([f], dropWs r)
      | _ => .error "expected right parenthesis to close field list."

/-- Embedding of `getFields`: an opening parenthesis, one or more
comma-separated fields, a closing parenthesis. -/
def getFields (cs : List Char) : Except String (List Field × List Char) :=
  match dropWs cs with
  | '(' :: r => getFieldsLoop (cs.length + 1) (dropWs r)
  | _ => .error "expected left parenthesis to begin field list."

/-- Embedding of `getConstructor`: a name (whose first character must be
uppercase — the source misspells the diagnostic as "later"), optionally
followed by a field list; failures inside the field list are wrapped in
the constructor context. -/
def getConstructor (cs : List Char) : Except String (Constructor × List Char) :=
  let cs₁ := dropWs cs
  let (nm, cs₂) := cs₁.span isWordChar
  match nm with
  | [] => .error "expected name in constructor"
  | c0 :: _ =>
    let ctor_name := String.mk nm
    let cs₃ := dropWs cs₂
    if ¬c0.isUpper then
      .error "constructor name must start with an uppercase later"
    else
      match cs₃ with
      | '(' :: _ =>
        match getFields cs₃ with
        | .ok (fs, rest) => .ok (⟨ctor_name, fs⟩, rest)
        | .error e => .error ("in ctor of " ++ ctor_name ++ ": " ++ e)
      | _ => .ok (⟨ctor_name, []⟩, cs₃)

/-- The `|`-separated constructor loop of `getSumType`. -/
def getSumTypeLoop : Nat → List Char → Except String (List Constructor × List Char)
  | 0, _ => .error "RecursionError"
  | fuel + 1, cs => do
    let (c, cs₁) ← getConstructor cs
    match dropWs cs₁ with
    | '|' :: r => do
      let (cts, rest) ← getSumTypeLoop fuel (dropWs r)
      .ok (c :: cts, rest)
    | _ => .ok ([c], cs₁)

/-- Embedding of `getSumType`: constructors joined by `|`, optionally
followed by the literal `attributes` (no word boundary required, as in
the source regex) and a field list. -/
def getSumType (cs : List Char) : Except String (AbstractType × List Char) := do
  let (ctors, cs₁) ← getSumTypeLoop (cs.length + 1) cs
  match matchLit "attributes".data (dropWs cs₁) with
  | some r => do
    let (attribs, rest) ← getFields (dropWs r)
    .ok (.sum ctors attribs, rest)
  | none => .ok (.sum ctors [], cs₁)

/-- The reserved built-in primitive type names of `_default_types`. -/
def defaultTypeNames : List String :=
  ["ident", "int", "char", "string", "str", "boolean", "bool", "float"]

/-- Embedding of the regex `^\s*(\w+)\s*=\s*` heading one typedef. -/
def matchTypedefHead (cs : List Char) : Option (String × List Char) :=
  let cs₁ := dropWs cs
  let (nm, cs₂) := cs₁.span isWordChar
  if nm.isEmpty then none
  else match dropWs cs₂ with
    | '=' :: r => some (String.mk nm, dropWs r)
    | _ => none

/-- Body of one typedef, inside the context wrapper: redefining the
reserved base name `AST` or a built-in primitive is an error; a body
whose first significant character is `(` is a ProductType, anything else
is parsed as a SumType. -/
def parseTypeBody (type_name : String) (rest : List Char) :
    Except String (AbstractType × List Char) :=
  if type_name = "AST" ∨ type_name ∈ defaultTypeNames then
    .error "cannot redefine basic type."
  else match dropWs rest with
    | '(' :: _ =>
      match getFields rest with
      | .ok (fs, r) => .ok (.product fs, r)
      | .error e => .error e
    | _ => getSumType rest

/-- The top-level typedef loop of `ParseAsdl`, with the set of already
defined names threaded through: a repeated name is a hard error raised
before the typedef body is even parsed. -/
def parseLoop : Nat → List Char → List String → List TypeDef →
    Except String (List TypeDef)
  | 0, _, _, _ => .error "RecursionError"
  | fuel + 1, cs, defined, acc =>
    if (dropWs cs).isEmpty then .ok acc
    else match matchTypedefHead cs with
      | none => .error "expected type definition"
      | some (type_name, rest) =>
        if type_name ∈ defined then
          .error ("cannot define type " ++ type_name ++ " twice.")
        else
          match parseTypeBody type_name rest with
          | .error e => .error ("in typedef of " ++ type_name ++ ": " ++ e)
          | .ok (td, rest') =>
            parseLoop fuel rest' (type_name :: defined)
              (acc ++ [TypeDef.mk type_name td])

/-- Tail condition of the module-header regex after the closing brace:
`\s*(attributes\s*)?$` with MULTILINE `$`, i.e. the whitespace run may
stop at the end of the input or just before a newline, optionally
passing over a literal `attributes` first. -/
def tailOk (suffix : List Char) : Bool :=
  let (w, rest) := suffix.span isSpaceChar
  if w.contains '\n' then true
  else if rest.isEmpty then true
  else match matchLit "attributes".data rest with
    | some r2 =>
      let (w2, rest2) := r2.span isSpaceChar
      w2.contains '\n' || rest2.isEmpty
    | none => false

/-- Index of the closing brace the greedy `(.*)` of the module-header
regex stops at: the last brace whose tail satisfies `tailOk`. -/
def lastCloseIdx (body : List Char) : Option Nat :=
  (List.range body.length).reverse.find? fun j =>
    body.get? j == some '\x7d' && tailOk (body.drop (j + 1))

/-- Embedding of the module-header regex
`^\s*module\s+(\w+)\s*\{\s*(.*)\s*\}\s*(attributes\s*)?$` (DOTALL and
MULTILINE): module keyword, module name, opening brace, greedy body up
to the last admissible closing brace. -/
def matchModuleHeader (cs : List Char) : Option (String × List Char) :=
  match matchLit "module".data (dropWs cs) with
  | none => none
  | some cs₂ =>
    let (w, cs₃) := cs₂.span isSpaceChar
    if w.isEmpty then none
    else
      let (nm, cs₄) := cs₃.span isWordChar
      if nm.isEmpty then none
      else match dropWs cs₄ with
        | '\x7b' :: r =>
          let body := dropWs r
          match lastCloseIdx body with
          | some j => some (String.mk nm, body.take j)
          | none => none
        | _ => none

/-- The loop maintains the invariant that every accumulated type name is
in `defined`, and names in `defined` are rejected, so a successful
parse yields pairwise distinct type names. -/
theorem parseLoop_nodup : ∀ (fuel : Nat) (cs : List Char)
    (defined : List String) (acc : List TypeDef),
    (acc.map TypeDef.type_name).Nodup →
    (∀ s ∈ acc.map TypeDef.type_name, s ∈ defined) →
    ∀ {tds : List TypeDef}, parseLoop fuel cs defined acc = .ok tds →
    (tds.map TypeDef.type_name).Nodup := by
  intro fuel
  induction fuel with
  | zero =>
    intro cs defined acc _ _ tds h
    simp [parseLoop] at h
  | succ fuel ih =>
    intro cs defined acc hnd hsub tds h
    rw [parseLoop] at h
    by_cases he : (dropWs cs).isEmpty
    · rw [if_pos he] at h
      have : acc = tds := by injection h
      subst this; exact hnd
    · rw [if_neg he] at h
      cases hm : matchTypedefHead cs with
      | none => rw [hm] at h; simp at h
      | some p =>
        obtain ⟨tn, rest⟩ := p
        rw [hm] at h
        dsimp only at h
        by_cases hd : tn ∈ defined
        · rw [if_pos hd] at h; simp at h
        · rw [if_neg hd] at h
          cases hb : parseTypeBody tn rest with
          | error e => rw [hb] at h; simp at h
          | ok q =>
            obtain ⟨td, rest'⟩ := q
            rw [hb] at h
            refine ih rest' (tn :: defined) (acc ++ [TypeDef.mk tn td]) ?_ ?_ h
            · rw [List.map_append]
              apply List.Nodup.append hnd (by simp)
              intro s hs1 hs2
              simp at hs2
              subst hs2
              exact hd (hsub s hs1)
            · intro s hs
              rw [List.map_append, List.mem_append] at hs
              rcases hs with hs | hs
              · exact List.mem_cons_of_mem tn (hsub s hs)
              · simp at hs
                subst hs
                exact List.mem_cons_self _ _

/-- Embedding of `ParseAsdl`: strip comments, match the module header,
parse the body typedef by typedef. -/
def ParseAsdl (asdl_string : String) : Except String Module :=
  match matchModuleHeader (stripComments asdl_string).data with
  | none => .error "missing module statement"
  | some (mod_name, mod_raw) =>
    match parseLoop (mod_raw.length + 1) mod_raw [] [] with
    | .ok tds => .ok ⟨mod_name, tds⟩
    | .error e => .error e

end AsdlGen

/-! ## Concrete fixtures for the claims -/

namespace BadAsdl

/-- Grandchild node of the depth-2 walk example. -/
def exG1 : ASTNode := .mk "G1" [] [] none none none none []

/-- Grandchild node of the depth-2 walk example. -/
def exG2 : ASTNode := .mk "G2" [] [] none none none none []

/-- First child of the depth-2 walk example. -/
def exC1 : ASTNode := .mk "C1" ["u"] [] none none none none [("u", .node exG1)]

/-- Second child of the depth-2 walk example. -/
def exC2 : ASTNode := .mk "C2" ["v"] [] none none none none [("v", .node exG2)]

/-- Root of the depth-2 walk example: two children, each with one child. -/
def exRoot : ASTNode := .mk "Root" ["a", "b"] [] none none none none
  [("a", .node exC1), ("b", .node exC2)]

/-- Node spanning (line 1, col 1)-(line 2, col 2). -/
def exSeg : ASTNode := .mk "X" [] [] (some 1) (some 1) (some 2) (some 2) []

/-- Node with `end_lineno` unset. -/
def exNoEnd : ASTNode := .mk "X" [] [] (some 1) (some 1) none (some 2) []

/-- Node with `col_offset` unset but the other three coordinates set. -/
def exNoCol : ASTNode := .mk "X" [] [] (some 1) none (some 2) (some 2) []

/-- A node of class C, element of a sequence-valued field. -/
def exElemC : ASTNode := .mk "C" [] [] none none none none []

/-- A node with one sequence-valued field `xs` containing one node. -/
def exParentC1 : ASTNode :=
  .mk "P" ["xs"] [] none none none none [("xs", .vlist [.node exElemC])]

/-- Another node of class C for the plain-transformer example. -/
def exElemD : ASTNode := .mk "C" [] [] none none none none []

/-- A second node with one sequence-valued field containing one node. -/
def exParentC2 : ASTNode :=
  .mk "Q" ["ys"] [] none none none none [("ys", .vlist [.node exElemD])]

/-- First replacement node returned by the 1-to-2 handler. -/
def exRep1 : ASTNode := .mk "R1" [] [] none none none none []

/-- Second replacement node returned by the 1-to-2 handler. -/
def exRep2 : ASTNode := .mk "R2" [] [] none none none none []

/-- A NodeTransformer subclass whose only handler, `visit_C`, returns a
sequence of two replacement nodes. -/
def exTrTwo : NodeTransformer :=
  ⟨fun s => if s = "visit_C" then
      some (fun _ => .vlist [.node exRep1, .node exRep2]) else none⟩

/-- The base NodeTransformer: no handlers of its own. -/
def exTrNone : NodeTransformer := ⟨fun _ => none⟩

/-- Single well-formed node with a start line set, for the
increment_lineno witness. -/
def exW : ASTNode := .mk "W" [] [] (some 4) (some 2) none none []

end BadAsdl

/-! ## Claim theorems -/

namespace BadAsdl

/-- C1.  The claim says the Transformer's generic handler rewrites a
sequence-valued field per element — visiting each node element, with a
two-node result spliced in place so the field grows by one.  The code
instead calls `self.visit(old)` on the enclosing list object, whose
dispatch name is `list`; with no `visit_list` handler this falls into
`generic_visit`, which immediately reads `._attribs` off the list and
raises AttributeError.  Evaluated here: a transformer whose `visit_C`
handler returns two replacement nodes, applied to a node with one
sequence field containing one C node, raises AttributeError instead of
producing the two-element field. -/
theorem claim_C1_sequence_rewrite_bug :
    tgeneric exTrTwo 20 (.node exParentC1) = .error "AttributeError" := rfl

/-- C2.  The claim says traversal, visiting, transforming and location
operations never raise on malformed or partially populated nodes — the
claim itself names sequence-valued fields containing Nodes.  The plain
NodeTransformer (no handlers), run on a node with one sequence-valued
field containing one node, raises AttributeError through the
`visit(old)` slip of `generic_visit`. -/
theorem claim_C2_transformer_raises :
    tgeneric exTrNone 20 (.node exParentC2) = .error "AttributeError" := rfl

/-- C3, counterexample.  On source "abc\ndef\n" and a node spanning
(1,1)-(2,2), `get_source_segment` does not return "bc\nde" as claimed:
the slice `[:end_col_offset+1]` keeps the end column inclusive, so the
second line is "def", giving "bc\ndef". -/
theorem claim_C3_counterexample :
    get_source_segment "abc\ndef\n" exSeg false ≠ .ok (some "bc\nde") ∧
    get_source_segment "abc\ndef\n" exSeg false = .ok (some "bc\ndef") := by
  constructor
  · intro h
    rw [show get_source_segment "abc\ndef\n" exSeg false
        = .ok (some "bc\ndef") from rfl] at h
    simp at h
  · rfl

/-- C3, amended.  `get_source_segment("abc\ndef\n", node)` with the node
spanning (1,1)-(2,2) returns "bc\ndef" (the end column is inclusive);
and for every node with `end_lineno` unset it returns absent, whatever
the source and the padded flag. -/
theorem claim_C3_amended :
    get_source_segment "abc\ndef\n" exSeg false = .ok (some "bc\ndef") ∧
    ∀ (src : String) (n : ASTNode) (p : Bool), n.end_lineno = none →
      get_source_segment src n p = .ok none := by
  refine ⟨rfl, ?_⟩
  intro src n p h
  cases hl : n.lineno <;> cases hc : n.col_offset <;>
    cases hec : n.end_col_offset <;>
      simp [get_source_segment, hl, hc, h, hec]

/-- Witness for C3: the amended theorem applied to a concrete node with
`end_lineno` unset. -/
theorem claim_C3_witness :
    get_source_segment "abc\ndef\n" exNoEnd false = .ok none :=
  claim_C3_amended.2 "abc\ndef\n" exNoEnd false rfl

/-- C4.  `walk(node)` yields the node itself first and then all
descendants in breadth-first level order (each level the concatenation
of the previous level's `iter_child_nodes`, FIFO frontier); on the
depth-2 tree with two children each having one child it yields exactly
the 5 nodes, root first. -/
theorem claim_C4_walk_bfs :
    (∀ n : ASTNode, walkList n = bfsRounds [n] ∧ (walkList n).head? = some n) ∧
    walkList exRoot = [exRoot, exC1, exC2, exG1, exG2] := by
  constructor
  · intro n
    refine ⟨walkAux_eq_bfsRounds [n], ?_⟩
    rw [show walkList n = walkAux [n] from rfl, walkAux_cons]
    rfl
  · have h0 : iter_child_nodes exRoot = [exC1, exC2] := rfl
    have h1 : iter_child_nodes exC1 = [exG1] := rfl
    have h2 : iter_child_nodes exC2 = [exG2] := rfl
    have h3 : iter_child_nodes exG1 = [] := rfl
    have h4 : iter_child_nodes exG2 = [] := rfl
    simp [walkList, walkAux_cons, walkAux_nil, h0, h1, h2, h3, h4]

/-- C5.  `iter_child_nodes` yields exactly the attribute-value children
first (in declared attribute order) and then the field-value children
(in declared field order), where each set value contributes itself when
it is a node, its node elements in order when it is a sequence, and
nothing otherwise — the per-name enumeration `specChildren`. -/
theorem claim_C5_iter_child_nodes_order :
    ∀ n : ASTNode, iter_child_nodes n = specChildren n :=
  iter_child_nodes_eq_specChildren

/-- C6.  `fix_missing_locations` performs the top-down fill starting
from (1,0,1,0): `FixSpec` states, node by node, that every unset
coordinate is set to the nearest ancestor's (possibly inherited) value
while every set coordinate is kept and becomes the value inherited by
that node's children — and the result satisfies it from the root.
Consequently every node reachable by the walk has all four coordinates
set, already-set coordinates are untouched, the tree shape (walk
length, class names) is preserved, and the returned root carries its
own coordinates defaulted from (1,0,1,0). -/
theorem claim_C6_fix_missing_locations : ∀ n : ASTNode,
    FixSpec 1 0 1 0 n (fix_missing_locations n) ∧
    List.Forall₂
      (fun a b =>
        b.className = a.className ∧
        (∀ x, a.lineno = some x → b.lineno = some x) ∧
        (∀ x, a.col_offset = some x → b.col_offset = some x) ∧
        (∀ x, a.end_lineno = some x → b.end_lineno = some x) ∧
        (∀ x, a.end_col_offset = some x → b.end_col_offset = some x) ∧
        b.lineno.isSome ∧ b.col_offset.isSome ∧
        b.end_lineno.isSome ∧ b.end_col_offset.isSome)
      (walkList n) (walkList (fix_missing_locations n)) ∧
    (fix_missing_locations n).lineno = some (n.lineno.getD 1) ∧
    (fix_missing_locations n).col_offset = some (n.col_offset.getD 0) ∧
    (fix_missing_locations n).end_lineno = some (n.end_lineno.getD 1) ∧
    (fix_missing_locations n).end_col_offset = some (n.end_col_offset.getD 0) ∧
    (fix_missing_locations n).className = n.className := by
  intro n
  have hsim : ∀ a b : ASTNode, (∃ l c el ec, b = fixAST l c el ec a) →
      List.Forall₂ (fun a b => ∃ l c el ec, b = fixAST l c el ec a)
        (iter_child_nodes a) (iter_child_nodes b) := by
    rintro a b ⟨l, c, el, ec, rfl⟩
    rw [iter_child_nodes_fixAST]
    exact forall₂_map_self _ _ fun x _ => ⟨_, _, _, _, rfl⟩
  have hw := walkAux_forall₂ _ hsim [n] [fixAST 1 0 1 0 n]
    (List.Forall₂.cons ⟨1, 0, 1, 0, rfl⟩ List.Forall₂.nil)
  obtain ⟨e1, e2, e3, e4⟩ := fixAST_locs 1 0 1 0 n
  refine ⟨fixAST_spec n 1 0 1 0, ?_, e1, e2, e3, e4, fixAST_className 1 0 1 0 n⟩
  refine hw.imp ?_
  rintro a b ⟨l, c, el, ec, rfl⟩
  obtain ⟨h1, h2, h3, h4⟩ := fixAST_locs l c el ec a
  refine ⟨fixAST_className l c el ec a, ?_, ?_, ?_, ?_, ?_, ?_, ?_, ?_⟩
  · intro x hx; rw [hx] at h1; simpa using h1
  · intro x hx; rw [hx] at h2; simpa using h2
  · intro x hx; rw [hx] at h3; simpa using h3
  · intro x hx; rw [hx] at h4; simpa using h4
  · rw [h1]; rfl
  · rw [h2]; rfl
  · rw [h3]; rfl
  · rw [h4]; rfl

/-- Witness for C6: the theorem instantiated at the concrete depth-2
tree. -/
theorem claim_C6_fix_witness :
    FixSpec 1 0 1 0 exRoot (fix_missing_locations exRoot) ∧
    (fix_missing_locations exRoot).lineno = some 1 ∧
    (fix_missing_locations exRoot).className = "Root" :=
  ⟨(claim_C6_fix_missing_locations exRoot).1,
   (claim_C6_fix_missing_locations exRoot).2.2.1, by
    have h := (claim_C6_fix_missing_locations exRoot).2.2.2.2.2.2
    simpa using h⟩

/-- C9.  On a proper tree (each node yielded once by its parent, which
is what `wfTree` states), `increment_lineno` adds `d` to every set
start line and every set end line along the walk, leaves unset lines
and both columns unchanged, and with `d = 0` it is the identity. -/
theorem claim_C9_increment_lineno : ∀ (n : ASTNode) (d : Int),
    wfTree n = true →
    List.Forall₂ (fun a b =>
        b.lineno = a.lineno.map (· + d) ∧
        b.col_offset = a.col_offset ∧
        b.end_lineno = a.end_lineno.map (· + d) ∧
        b.end_col_offset = a.end_col_offset)
      (walkList n) (walkList (increment_lineno n d)) ∧
    increment_lineno n 0 = n := by
  intro n d hwf
  constructor
  · have hsim : ∀ a b : ASTNode, (wfTree a = true ∧ b = incAST d a) →
        List.Forall₂ (fun a b => wfTree a = true ∧ b = incAST d a)
          (iter_child_nodes a) (iter_child_nodes b) := by
      rintro a b ⟨ha, rfl⟩
      rw [iter_child_nodes_incAST d a (wfTree_dupFree ha)]
      exact forall₂_map_self _ _ fun x hx => ⟨wfTree_child ha hx, rfl⟩
    have hw := walkAux_forall₂ _ hsim [n] [incAST d n]
      (List.Forall₂.cons ⟨hwf, rfl⟩ List.Forall₂.nil)
    refine hw.imp ?_
    rintro a b ⟨_, rfl⟩
    exact incAST_locs d a
  · exact incAST_zero n

/-- Witness for C9: the theorem applied to a concrete one-node tree with
start line 4, shifted by 5. -/
theorem claim_C9_witness :
    List.Forall₂ (fun a b =>
        b.lineno = a.lineno.map (· + (5 : Int)) ∧
        b.col_offset = a.col_offset ∧
        b.end_lineno = a.end_lineno.map (· + (5 : Int)) ∧
        b.end_col_offset = a.end_col_offset)
      (walkList exW) (walkList (increment_lineno exW 5)) ∧
    increment_lineno exW 0 = exW :=
  claim_C9_increment_lineno exW 5 (by
    rw [wfTree_unfold]
    have h : iter_child_nodes exW = [] := rfl
    rw [h]
    simp [dupFree, noDupB, exW, ASTNode.attribs, ASTNode.fields])

/-- C10.  When the start column is unset, `get_source_segment` returns
absent even in padded mode: the presence check of all four coordinates
runs before the padded override sets the start column to 0. -/
theorem claim_C10_padded_unset_col :
    ∀ (src : String) (n : ASTNode), n.col_offset = none →
      get_source_segment src n true = .ok none := by
  intro src n h
  cases hl : n.lineno <;> cases he : n.end_lineno <;>
    cases hec : n.end_col_offset <;>
      simp [get_source_segment, hl, h, he, hec]

/-- Witness for C10: concrete node with only the start column unset. -/
theorem claim_C10_witness :
    get_source_segment "abc\ndef\n" exNoCol true = .ok none :=
  claim_C10_padded_unset_col "abc\ndef\n" exNoCol rfl

end BadAsdl

namespace AsdlGen

/-- C7.  Within one module, type names are unique: a successful parse
can only produce pairwise-distinct typedef names (the loop rejects a
name already defined before even parsing the body), and the concrete
schema with A defined twice fails with the duplicate-name diagnostic. -/
theorem claim_C7_duplicate_names :
    (∀ (s : String) (m : Module), ParseAsdl s = .ok m →
      (m.typedefs.map TypeDef.type_name).Nodup) ∧
    ParseAsdl "module M \x7b A = (int x) B = (int x) A = (int x) \x7d" =
      .error "cannot define type A twice." := by
  constructor
  · intro s m h
    unfold ParseAsdl at h
    cases hh : matchModuleHeader (stripComments s).data with
    | none => rw [hh] at h; simp at h
    | some p =>
      obtain ⟨mn, mr⟩ := p
      rw [hh] at h
      dsimp only at h
      cases hp : parseLoop (mr.length + 1) mr [] [] with
      | error e => rw [hp] at h; simp at h
      | ok tds =>
        rw [hp] at h
        have hm : m.typedefs = tds := by
          have : Module.mk mn tds = m := by injection h
          rw [← this]
        rw [hm]
        exact parseLoop_nodup (mr.length + 1) mr [] [] (by simp)
          (by simp) hp
  · rfl

/-- The module parsed for the C7 witness. -/
def exModuleW : Module :=
  ⟨"M", [⟨"A", .product [⟨"int", "x", false, false⟩]⟩,
         ⟨"B", .product [⟨"str", "y", false, false⟩]⟩]⟩

/-- Witness for C7: the uniqueness half applied to a concrete
successful parse. -/
theorem claim_C7_witness :
    (exModuleW.typedefs.map TypeDef.type_name).Nodup :=
  claim_C7_duplicate_names.1 "module M \x7b A = (int x) B = (str y) \x7d"
    exModuleW rfl

/-- C8.  Whenever the field regex matches — type name, optional marker,
field name — `getField` returns a Field whose two multiplicity flags
follow the claimed table: no marker gives (false, false), `?` gives
(true, false), `*` gives (true, true), `+` gives (false, true). -/
theorem claim_C8_marker_flags :
    ∀ (cs : List Char) (tn : String) (sym : Option Char) (fn : String)
      (rest : List Char),
      matchFieldHead cs = some (tn, sym, fn, rest) →
      ∃ f : Field, getField cs = .ok (f, rest) ∧
        f.type_name = tn ∧ f.field_name = fn ∧
        (sym = none → f.can_none = false ∧ f.can_many = false) ∧
        (sym = some '?' → f.can_none = true ∧ f.can_many = false) ∧
        (sym = some '*' → f.can_none = true ∧ f.can_many = true) ∧
        (sym = some '+' → f.can_none = false ∧ f.can_many = true) := by
  intro cs tn sym fn rest h
  refine ⟨⟨tn, fn, sym == some '?' || sym == some '*',
    sym == some '*' || sym == some '+'⟩, ?_, rfl, rfl, ?_, ?_, ?_, ?_⟩
  · unfold getField
    rw [h]
  · rintro rfl; exact ⟨rfl, rfl⟩
  · rintro rfl; exact ⟨rfl, rfl⟩
  · rintro rfl; exact ⟨rfl, rfl⟩
  · rintro rfl; exact ⟨rfl, rfl⟩

/-- Witness for C8: the theorem applied to the concrete field text
`int* xs`. -/
theorem claim_C8_witness :
    ∃ f : Field, getField "int* xs".data = .ok (f, []) ∧
      f.type_name = "int" ∧ f.field_name = "xs" ∧
      (some '*' = (none : Option Char) →
        f.can_none = false ∧ f.can_many = false) ∧
      (some '*' = some '?' → f.can_none = true ∧ f.can_many = false) ∧
      (some '*' = some '*' → f.can_none = true ∧ f.can_many = true) ∧
      (some '*' = some '+' → f.can_none = false ∧ f.can_many = true) :=
  claim_C8_marker_flags "int* xs".data "int" (some '*') "xs" [] rfl

end AsdlGen
